import Mathlib

/-!
Verification of the dotfile synchronization engine of the `polk` repository.

The development shallowly embeds the Rust sources:
  * `src/feature.rs`  — feature tokens, `supports`, `required_features`,
    `substitute_enabled_feature_names`;
  * `src/symlink.rs`  — `build`, `destroy`, `exists`, `path`;
  * `src/cache.rs`    — `UserCache::dotfiles`, `link_ext`, `unlink`, and the
    `backup` module (`backup::path`, `backup::restore_path`).

File names are lists of characters, paths are lists of components, and the
filesystem is an association list from absolute paths to nodes.  Rust's
`HashSet` iteration order is unspecified, so feature sets are embedded as
lists whose order stands for the iteration order.
-/

set_option maxRecDepth 40000

namespace Polk

/-- A file name or single path component, as its list of characters. -/
abbrev Name := List Char

/-- A filesystem path, as its list of components. -/
abbrev Path := List Name

/-- Abbreviation turning a string literal into a `Name`. -/
def nm (s : String) : Name := s.toList

/-- `OS_NAMES` from `feature.rs`. -/
def osNames : List Name :=
  [nm "linux", nm "macos", nm "ios", nm "freebsd", nm "dragonfly", nm "bitrig",
   nm "netbsd", nm "openbsd", nm "solaris", nm "android", nm "windows"]

/-- `FAMILIES` from `feature.rs`. -/
def familyNames : List Name := [nm "unix", nm "windows"]

/-- `ARCH_NAMES` from `feature.rs`. -/
def archNames : List Name :=
  [nm "x86", nm "x86_64", nm "arm", nm "aarch64", nm "mips", nm "mips64",
   nm "powerpc", nm "powerpc64", nm "s390x", nm "sparc64"]

/-- `ALL_FEATURES` from `feature.rs`, flattened in source order. -/
def allFeatures : List Name := osNames ++ familyNames ++ archNames

/-- Whether a name is a known feature token (used by `validate_feature`). -/
def isFeature (n : Name) : Bool := allFeatures.any (fun f => f == n)

/-- `FeatureSet::new` validates every token; a `FeatureSet` is valid when all
its enabled tokens are known features. -/
def ValidFeatureSet (enabled : List Name) : Prop := ∀ f ∈ enabled, isFeature f = true

/-- `feature_name` from `feature.rs`: the namespace name of a feature token.
The source panics on an unknown token; that unreachable case is modelled by
the empty name. -/
def featureName (v : Name) : Name :=
  if osNames.any (fun o => o == v) then nm "os"
  else if familyNames.any (fun o => o == v) then nm "family"
  else if archNames.any (fun o => o == v) then nm "arch"
  else []

/-- Splitting a file name on the character `.`, as Rust's `str::split`. -/
def splitOnDot : Name → List Name
  | [] => [[]]
  | c :: rest =>
    if c = '.' then [] :: splitOnDot rest
    else
      match splitOnDot rest with
      | [] => [[c]]
      | p :: ps => (c :: p) :: ps

/-- `Path::file_name` of a relative path: its last component.  The source
unwraps the `Option`; the empty-path case (a panic there) yields `[]`. -/
def fileNameOf (p : Path) : Name := p.getLastD []

/-- A dotfile, as in `dotfile.rs`: an absolute path inside the cache and the
path relative to the dotfiles subtree. -/
structure Dotfile where
  fullPath : Path
  relativePath : Path
deriving DecidableEq

/-- `required_features` from `feature.rs`: the file-name components that
exactly match a known feature token. -/
def requiredFeatures (fileName : Name) : List Name :=
  (splitOnDot fileName).filterMap (fun part => allFeatures.find? (fun f => f == part))

/-- `FeatureSet::supports`: the enabled set is a superset of the dotfile's
required features. -/
def supports (enabled : List Name) (d : Dotfile) : Bool :=
  (requiredFeatures (fileNameOf d.relativePath)).all (fun r => enabled.any (fun e => e == r))

/-- Fuel-based worker for `replaceAll`; every recursive call consumes at
least one character of the string, so `s.length` fuel always suffices. -/
def replaceAllAux (t n : Name) : Nat → Name → Name
  | 0, s => s
  | fuel + 1, s =>
    match s with
    | [] => []
    | c :: rest =>
      if t ≠ [] ∧ t.isPrefixOf (c :: rest) then
        n ++ replaceAllAux t n fuel ((c :: rest).drop t.length)
      else
        c :: replaceAllAux t n fuel rest

/-- Rust's `str::replace`: replace every leftmost non-overlapping occurrence
of `t` by `n`.  (The source never calls it with an empty pattern.) -/
def replaceAll (t n s : Name) : Name := replaceAllAux t n s.length s

/-- The file-name rewriting loop of `substitute_enabled_feature_names`:
each enabled token is replaced, in iteration order, by its namespace name. -/
def substituteFileName (enabled : List Name) (fileName : Name) : Name :=
  match enabled with
  | [] => fileName
  | t :: ts => substituteFileName ts (replaceAll t (featureName t) fileName)

/-- `with_file_name`: replace the last component of a path. -/
def substitutePath (enabled : List Name) (p : Path) : Path :=
  p.dropLast ++ [substituteFileName enabled (fileNameOf p)]

/-- `FeatureSet::substitute_enabled_feature_names` acting on a dotfile. -/
def substituteEnabledFeatureNames (enabled : List Name) (d : Dotfile) : Dotfile :=
  ⟨d.fullPath, substitutePath enabled d.relativePath⟩

/-- Whether `t` occurs as a contiguous substring of `s`. -/
def occursIn (t : Name) : Name → Bool
  | [] => t.isEmpty
  | c :: rest => t.isPrefixOf (c :: rest) || occursIn t rest

/-- The spec's component-wise reading of substitution: every component equal
to an enabled token becomes its namespace name, all others are unchanged. -/
def joinDots : List Name → Name
  | [] => []
  | [p] => p
  | p :: ps => p ++ '.' :: joinDots ps

/-- Component-wise substitution, as the specification words it (for
comparison with the source's `substituteFileName`). -/
def componentwiseSubstitute (enabled : List Name) (fileName : Name) : Name :=
  joinDots ((splitOnDot fileName).map (fun c => if c ∈ enabled then featureName c else c))

instance (enabled : List Name) : Decidable (ValidFeatureSet enabled) :=
  List.decidableBAll _ enabled

/-- The six possible iteration orders of the token set `{linux, unix, x86}`
(the enabled set of the spec's examples; `HashSet` order is unspecified). -/
def enabledOrders : List (List Name) :=
  [[nm "linux", nm "unix", nm "x86"], [nm "linux", nm "x86", nm "unix"],
   [nm "unix", nm "linux", nm "x86"], [nm "unix", nm "x86", nm "linux"],
   [nm "x86", nm "linux", nm "unix"], [nm "x86", nm "unix", nm "linux"]]

/-! ## The filesystem model

A filesystem is an association list from absolute paths to nodes; lookups
take the first matching entry.  `exists`/`is_dir`/`canonicalize` follow
symbolic links at the final component, with fuel bounding chain length
(a cycle behaves like Unix `ELOOP`: the path does not resolve). -/

/-- A filesystem node: regular file (with its byte contents), directory, or
symbolic link holding a target path. -/
inductive Node where
  | file (data : List Nat)
  | dir
  | symlink (target : Path)
deriving DecidableEq

/-- A filesystem: an association list from paths to nodes. -/
abbrev FS := List (Path × Node)

/-- `lstat`-style lookup of the entry stored at a path. -/
def findEntry : FS → Path → Option Node
  | [], _ => none
  | (k, n) :: rest, p => if k = p then some n else findEntry rest p

/-- Resolve a path through symlink chains (bounded by fuel), returning the
final path and its node. -/
def resolveEntry (fs : FS) : Nat → Path → Option (Path × Node)
  | 0, _ => none
  | fuel + 1, p =>
    match findEntry fs p with
    | none => none
    | some (Node.symlink t) => resolveEntry fs fuel t
    | some n => some (p, n)

/-- Enough fuel to follow any acyclic symlink chain in `fs`. -/
def fsFuel (fs : FS) : Nat := fs.length + 1

/-- Rust `Path::exists`: `stat` succeeds, following symlinks; a dangling
symlink does not exist. -/
def pathExists (fs : FS) (p : Path) : Bool := (resolveEntry fs (fsFuel fs) p).isSome

/-- Rust `Path::is_dir`: the resolved node is a directory. -/
def isDir (fs : FS) (p : Path) : Bool :=
  match resolveEntry fs (fsFuel fs) p with
  | some (_, Node.dir) => true
  | _ => false

/-- Rust `Path::canonicalize`: the resolved path (`none` models the
`Err` of a non-existing path). -/
def canonicalize (fs : FS) (p : Path) : Option Path :=
  (resolveEntry fs (fsFuel fs) p).map Prod.fst

/-- Add an entry (new entries shadow older ones). -/
def insertEntry (fs : FS) (p : Path) (n : Node) : FS := (p, n) :: fs

/-- `fs::remove_file`-style removal of the entry at exactly `p`. -/
def eraseEntry : FS → Path → FS
  | [], _ => []
  | (k, n) :: rest, p => if k = p then eraseEntry rest p else (k, n) :: eraseEntry rest p

/-- `a` is an initial segment of `b` (`b` equals or lies under `a`). -/
def under : Path → Path → Bool
  | [], _ => true
  | _ :: _, [] => false
  | a :: as, b :: bs => a = b && under as bs

/-- `fs::remove_dir_all`: delete the subtree rooted at `p`. -/
def removeTree : FS → Path → FS
  | [], _ => []
  | (k, n) :: rest, p => if under p k then removeTree rest p else (k, n) :: removeTree rest p

/-- `fs::rename src dst`: move the subtree rooted at `src` to `dst`,
replacing any entry stored at exactly `dst` (as `rename(2)` does). -/
def renameFs : FS → Path → Path → FS
  | [], _, _ => []
  | (k, n) :: rest, src, dst =>
    if under src k then (dst ++ k.drop src.length, n) :: renameFs rest src dst
    else if k = dst then renameFs rest src dst
    else (k, n) :: renameFs rest src dst

/-- `fs::create_dir_all`: create every missing ancestor directory. -/
def mkDirAll (fs : FS) (p : Path) : FS :=
  p.inits.foldl (fun acc q => if (findEntry acc q).isSome then acc else insertEntry acc q Node.dir) fs

/-! ## symlink.rs -/

/-- `symlink::Config`: the home directory links are created under. -/
structure Config where
  homePath : Path
deriving DecidableEq

/-- Filesystem errors surfaced by the symlink operations. -/
inductive FsError where
  | eexist
  | isDirectory
  | ioError
deriving DecidableEq

/-- `symlink::path`: where the dotfile's symlink should live. -/
def linkPath (d : Dotfile) (cfg : Config) : Path := cfg.homePath ++ d.relativePath

/-- The tail of `symlink::build`: create missing parent directories, then
create the symlink (`symlink(2)` fails with `EEXIST` when any entry — even a
dangling link — already occupies the destination). -/
def finishBuild (fs : FS) (d : Dotfile) (dest : Path) : FS × Except FsError Unit :=
  let fs1 :=
    match dest with
    | [] => fs
    | _ :: _ => if pathExists fs dest.dropLast then fs else mkDirAll fs dest.dropLast
  if (findEntry fs1 dest).isSome then (fs1, Except.error FsError.eexist)
  else (insertEntry fs1 dest (Node.symlink d.fullPath), Except.ok ())

/-- `symlink::build` from `symlink.rs`.  Note the source removes the
existing link only in the equal-target branch; in the different-target
branch it merely logs "deleting it" and falls through with the stale link
still in place. -/
def build (fs : FS) (d : Dotfile) (cfg : Config) : FS × Except FsError Unit :=
  let dest := linkPath d cfg
  if pathExists fs dest then
    if isDir fs dest then (fs, Except.ok ())
    else
      match findEntry fs dest with
      | some (Node.symlink t) =>
        match canonicalize fs t, canonicalize fs d.fullPath with
        | some ct, some cf =>
          if ct = cf then finishBuild (eraseEntry fs dest) d dest
          else finishBuild fs d dest
        | _, _ => (fs, Except.error FsError.ioError)
      | some _ => (fs, Except.ok ())
      | none => (fs, Except.error FsError.ioError)
  else finishBuild fs d dest

/-- `symlink::destroy`: `remove_file` the target, treating `NotFound` as
success (`remove_file` on a directory fails and the error is propagated). -/
def destroy (fs : FS) (d : Dotfile) (cfg : Config) : FS × Except FsError Unit :=
  let dest := linkPath d cfg
  match findEntry fs dest with
  | none => (fs, Except.ok ())
  | some Node.dir => (fs, Except.error FsError.isDirectory)
  | some _ => (eraseEntry fs dest, Except.ok ())

/-- `symlink::exists`: the target path exists (after following symlinks) and
its own metadata is a symlink. -/
def linkExists (fs : FS) (d : Dotfile) (cfg : Config) : Except FsError Bool :=
  let p := linkPath d cfg
  if pathExists fs p then
    match findEntry fs p with
    | some (Node.symlink _) => Except.ok true
    | some _ => Except.ok false
    | none => Except.error FsError.ioError
  else Except.ok false

/-! ## cache.rs -/

/-- The `.git` name used by both blacklists. -/
def gitName : Name := nm ".git"

/-- `DIRECTORY_BLACKLIST` from `cache.rs`. -/
def directoryBlacklist : List Name := [gitName]

/-- `DOTFILE_FILE_BLACKLIST` from `cache.rs`. -/
def dotfileFileBlacklist : List Name := [nm ".gitignore", nm ".git"]

/-- Any path component is a blacklisted directory name. -/
def folderBlacklisted (p : Path) : Bool :=
  p.any (fun comp => directoryBlacklist.any (fun bl => bl == comp))

/-- The file's own name is blacklisted. -/
def fileBlacklisted (fileName : Name) : Bool :=
  dotfileFileBlacklist.any (fun bl => fileName == bl)

/-- The submodule walk-up loop of `UserCache::dotfiles`: from the file
upward, stop at the dotfiles root, and report a nested repository when some
visited path contains a `.git` entry.  Each iteration drops one component,
so `p.length + 1` fuel always suffices. -/
def isSubmoduleAux (fs : FS) (root : Path) : Nat → Path → Bool
  | 0, _ => false
  | fuel + 1, p =>
    if p = root then false
    else if pathExists fs (p ++ [gitName]) then true
    else if p = [] then false
    else isSubmoduleAux fs root fuel p.dropLast

/-- The `is_submodule` flag computed by `UserCache::dotfiles`. -/
def isSubmodule (fs : FS) (root : Path) (p : Path) : Bool :=
  isSubmoduleAux fs root (p.length + 1) p

/-- Whether a node is a regular file. -/
def isFileNode : Node → Bool
  | Node.file _ => true
  | _ => false

/-- `UserCache::dotfiles`: walk the dotfiles root (empty list when it does
not exist) and keep every regular file that passes the three blacklist
checks, with `relative_path` the full path minus the root prefix. -/
def dotfilesScan (fs : FS) (root : Path) : List Dotfile :=
  if pathExists fs root then
    fs.filterMap (fun e =>
      if isFileNode e.2 && under root e.1 && !folderBlacklisted e.1 &&
         !fileBlacklisted (fileNameOf e.1) && !isSubmodule fs root e.1
      then some ⟨e.1, e.1.drop root.length⟩
      else none)
  else []

/-- `UserCache::link_ext`: for every supported dotfile, substitute the
enabled feature names and build its symlink; a build error aborts the loop
(the `?` operator). -/
def linkExt (fs : FS) (enabled : List Name) (ds : List Dotfile) (cfg : Config) :
    FS × Except FsError Unit :=
  match ds with
  | [] => (fs, Except.ok ())
  | d :: rest =>
    if supports enabled d then
      match build fs (substituteEnabledFeatureNames enabled d) cfg with
      | (fs1, Except.ok _) => linkExt fs1 enabled rest cfg
      | (fs1, Except.error e) => (fs1, Except.error e)
    else linkExt fs enabled rest cfg

/-- `UserCache::unlink`: for every dotfile (no feature-name substitution in
the source), destroy its symlink when `symlink::exists` reports one. -/
def unlinkStep (fs : FS) (ds : List Dotfile) (cfg : Config) : FS × Except FsError Unit :=
  match ds with
  | [] => (fs, Except.ok ())
  | d :: rest =>
    match linkExists fs d cfg with
    | Except.error e => (fs, Except.error e)
    | Except.ok true =>
      match destroy fs d cfg with
      | (fs1, Except.ok _) => unlinkStep fs1 rest cfg
      | (fs1, Except.error e) => (fs1, Except.error e)
    | Except.ok false => unlinkStep fs rest cfg

/-- `UserCache::link` on a filesystem: scan the dotfiles root, then link. -/
def linkFull (fs : FS) (enabled : List Name) (root : Path) (cfg : Config) :
    FS × Except FsError Unit :=
  linkExt fs enabled (dotfilesScan fs root) cfg

/-- `UserCache::unlink` on a filesystem: scan the dotfiles root, then
unlink. -/
def unlinkFull (fs : FS) (root : Path) (cfg : Config) : FS × Except FsError Unit :=
  unlinkStep fs (dotfilesScan fs root) cfg

/-! ## The backup module of cache.rs -/

/-- `backup::restore_path`: if something occupies `path`, delete it (a
directory recursively, anything else with `remove_file`), then move the
backup from `temp_path` back to `path`. -/
def restorePath (fs : FS) (p temp : Path) : FS :=
  let fs1 :=
    if pathExists fs p then
      if isDir fs p then removeTree fs p else eraseEntry fs p
    else fs
  renameFs fs1 temp p

/-- `backup::path`: when `path` exists, move it to the temporary backup
location, run `f`, and on failure restore the backup and surface `f`'s
error.  `temp` stands for the random, collision-free backup path.  The
modelled filesystem primitives cannot fail, so the source's
restore-failure branch (which would replace the surfaced error) is
unreachable here. -/
def backupRun {E T : Type} (fs : FS) (p temp : Path) (f : FS → FS × Except E T) :
    FS × Except E T :=
  if pathExists fs p then
    let r := f (renameFs fs p temp)
    match r.2 with
    | Except.ok t => (r.1, Except.ok t)
    | Except.error e => (restorePath r.1 p temp, Except.error e)
  else f fs

instance {E T : Type} [DecidableEq E] [DecidableEq T] : DecidableEq (Except E T) := fun
  | Except.error a, Except.error b =>
    if h : a = b then .isTrue (by rw [h]) else .isFalse (fun he => h (by cases he; rfl))
  | Except.error _, Except.ok _ => .isFalse (fun he => Except.noConfusion he)
  | Except.ok _, Except.error _ => .isFalse (fun he => Except.noConfusion he)
  | Except.ok a, Except.ok b =>
    if h : a = b then .isTrue (by rw [h]) else .isFalse (fun he => h (by cases he; rfl))

/-! ## Specification-side predicates and well-formedness -/

/-- The spec's nested-repository condition: some ancestor strictly between
the file and the dotfiles root contains a `.git` entry. -/
def NestedRepo (fs : FS) (root p : Path) : Prop :=
  ∃ a ∈ p.inits, under root a = true ∧ a ≠ root ∧ a ≠ p ∧
    pathExists fs (a ++ [gitName]) = true

instance (fs : FS) (root p : Path) : Decidable (NestedRepo fs root p) := by
  unfold NestedRepo
  infer_instance

/-- The entry at `p` is a regular file. -/
def isFileEntry (fs : FS) (p : Path) : Bool :=
  match findEntry fs p with
  | some (Node.file _) => true
  | _ => false

/-- Well-formed filesystem: keys are unique, and no entry lies strictly
under a regular file (as on a real filesystem). -/
def WFfs (fs : FS) : Prop :=
  (fs.map Prod.fst).Nodup ∧
  ∀ e ∈ fs, isFileNode e.2 = true → ∀ e2 ∈ fs, under e.1 e2.1 = true → e.1 = e2.1

instance (fs : FS) : Decidable (WFfs fs) := by
  unfold WFfs
  infer_instance

/-! ## Concrete fixtures used by counterexamples and failing inputs -/

/-- C1 fixture: the cached dotfile. -/
def d1 : Dotfile := ⟨[nm "cache", nm "f"], [nm "f"]⟩

/-- C1 fixture: link into `/home`. -/
def cfg1 : Config := ⟨[nm "home"]⟩

/-- C1 fixture: the link path holds a symlink to a different existing
file. -/
def fsStale : FS :=
  [([nm "cache"], Node.dir), ([nm "cache", nm "f"], Node.file [1]),
   ([nm "other"], Node.file [2]), ([nm "home"], Node.dir),
   ([nm "home", nm "f"], Node.symlink [nm "other"])]

/-- C9 fixture: a regular file occupies the link path. -/
def fsRegular : FS := [([nm "home"], Node.dir), ([nm "home", nm "g"], Node.file [7])]

/-- C9 fixture: the dotfile whose link path is occupied. -/
def d9 : Dotfile := ⟨[nm "cache", nm "g"], [nm "g"]⟩

/-- C5 fixture: the dotfiles root of the user cache. -/
def root5 : Path := [nm "cache", nm "dotfiles"]

/-- C5 fixture: the home directory. -/
def home5 : Path := [nm "home"]

/-- C5 fixture: the enabled features of a linux/x86 machine. -/
def enabled5 : List Name := [nm "linux", nm "unix", nm "x86"]

/-- C5 fixture: a cache holding the single dotfile `.tmux.linux.conf`. -/
def fs5 : FS :=
  [([nm "cache"], Node.dir), (root5, Node.dir),
   (root5 ++ [nm ".tmux.linux.conf"], Node.file [3]), (home5, Node.dir)]

/-- C10 fixture: a dangling symlink at the link path. -/
def fsDangling : FS :=
  [([nm "home"], Node.dir), ([nm "home", nm "h"], Node.symlink [nm "gone"])]

/-- C10 fixture: the dotfile whose link path holds the dangling link. -/
def d10 : Dotfile := ⟨[nm "cache", nm "h"], [nm "h"]⟩

/-- C8 fixture: the dotfiles root. -/
def root8 : Path := [nm "c"]

/-- C8 fixture: a cache with a plain dotfile, a top-level `.git` directory,
a nested repository under `vendor`, and a `.gitignore`. -/
def fs8 : FS :=
  [(root8, Node.dir), (root8 ++ [nm ".vimrc"], Node.file [1]),
   (root8 ++ [nm ".git"], Node.dir), (root8 ++ [nm ".git", nm "config"], Node.file [2]),
   (root8 ++ [nm "vendor"], Node.dir), (root8 ++ [nm "vendor", nm ".git"], Node.dir),
   (root8 ++ [nm "vendor", nm "sub.conf"], Node.file [3]),
   (root8 ++ [nm ".gitignore"], Node.file [4])]

/-- C2 fixture: the protected path (a user's dotfiles directory). -/
def pB : Path := [nm "u", nm "dotfiles"]

/-- C2 fixture: the random sibling backup location. -/
def tempB : Path := [nm "u", nm ".dotfiles.1234.backup"]

/-- C2 fixture: the filesystem before the transactional replace. -/
def fsB : FS := [([nm "u"], Node.dir), (pB, Node.dir), (pB ++ [nm "a"], Node.file [1])]

/-- C2 fixture: a closure that partially repopulates the path (a fresh
directory with one junk file) and then fails with error `7`. -/
def fB : FS → FS × Except Nat Unit :=
  fun s => (insertEntry (insertEntry s pB Node.dir) (pB ++ [nm "junk"]) (Node.file [9]),
    Except.error 7)

/-! ## Lemmas about `under`, the initial-segment order on paths -/

theorem under_iff (a b : Path) : under a b = true ↔ ∃ t, a ++ t = b := by
  induction a generalizing b with
  | nil => simp [under]
  | cons x xs ih =>
    cases b with
    | nil => simp [under]
    | cons y ys =>
      rw [under, Bool.and_eq_true, decide_eq_true_eq, ih ys]
      constructor
      · rintro ⟨rfl, t, rfl⟩
        exact ⟨t, rfl⟩
      · rintro ⟨t, ht⟩
        rw [List.cons_append] at ht
        cases ht
        exact ⟨rfl, t, rfl⟩

theorem under_refl (a : Path) : under a a = true :=
  (under_iff a a).mpr ⟨[], by simp⟩

theorem under_append (a t : Path) : under a (a ++ t) = true :=
  (under_iff _ _).mpr ⟨t, rfl⟩

theorem under_trans {a b c : Path} (h1 : under a b = true) (h2 : under b c = true) :
    under a c = true := by
  obtain ⟨t1, rfl⟩ := (under_iff a b).mp h1
  obtain ⟨t2, rfl⟩ := (under_iff _ c).mp h2
  rw [List.append_assoc]
  exact under_append _ _

theorem under_length {a b : Path} (h : under a b = true) : a.length ≤ b.length := by
  obtain ⟨t, rfl⟩ := (under_iff a b).mp h
  simp

theorem eq_append_of_under {a b : Path} (h : under a b = true) :
    a ++ b.drop a.length = b := by
  obtain ⟨t, rfl⟩ := (under_iff a b).mp h
  rw [List.drop_left]

theorem under_antisymm {a b : Path} (h1 : under a b = true) (h2 : under b a = true) :
    a = b := by
  obtain ⟨t, rfl⟩ := (under_iff a b).mp h1
  have := under_length h2
  simp only [List.length_append] at this
  have ht : t = [] := List.eq_nil_of_length_eq_zero (by omega)
  simp [ht]

theorem under_comparable :
    ∀ (a b c : Path), under a c = true → under b c = true →
      under a b = true ∨ under b a = true := by
  intro a
  induction a with
  | nil => intro b c _ _; left; rfl
  | cons x xs ih =>
    intro b c h1 h2
    cases b with
    | nil => right; rfl
    | cons y ys =>
      cases c with
      | nil => cases h1
      | cons z zs =>
        rw [under, Bool.and_eq_true, decide_eq_true_eq] at h1 h2
        obtain ⟨rfl, h1⟩ := h1
        obtain ⟨rfl, h2⟩ := h2
        rcases ih ys zs h1 h2 with h | h
        · left; rw [under, Bool.and_eq_true, decide_eq_true_eq]; exact ⟨rfl, h⟩
        · right; rw [under, Bool.and_eq_true, decide_eq_true_eq]; exact ⟨rfl, h⟩

theorem under_nil_right {a : Path} (h : under a [] = true) : a = [] := by
  cases a with
  | nil => rfl
  | cons x xs => cases h

theorem dropLast_append_of_ne_nil' {t : Path} (a : Path) (ht : t ≠ []) :
    (a ++ t).dropLast = a ++ t.dropLast := by
  induction a with
  | nil => rfl
  | cons x xs ih =>
    rw [List.cons_append, List.cons_append, ← ih]
    cases hx : xs ++ t with
    | nil =>
      rcases List.append_eq_nil.mp hx with ⟨_, rfl⟩
      cases ht rfl
    | cons y ys => simp [List.dropLast_cons₂]

theorem under_dropLast {a b : Path} (h : under a b = true) (hne : a ≠ b) :
    under a b.dropLast = true := by
  obtain ⟨t, rfl⟩ := (under_iff a b).mp h
  cases t with
  | nil => simp at hne
  | cons u us =>
    rw [dropLast_append_of_ne_nil' a (by simp)]
    exact under_append _ _

theorem under_of_under_dropLast {a b : Path} (h : under a b.dropLast = true) :
    under a b = true := by
  cases b with
  | nil => exact h
  | cons x xs =>
    refine under_trans h ?_
    rw [under_iff]
    exact ⟨[(x :: xs).getLast (by simp)], List.dropLast_append_getLast (by simp)⟩

theorem under_iff_dropLast {a b : Path} (hb : b ≠ []) :
    under a b = true ↔ (under a b.dropLast = true ∨ a = b) := by
  constructor
  · intro h
    by_cases hab : a = b
    · right; exact hab
    · left; exact under_dropLast h hab
  · rintro (h | rfl)
    · exact under_of_under_dropLast h
    · exact under_refl a

/-! ## Lemmas about lookups and existence -/

theorem findEntry_eq_none_iff (fs : FS) (k : Path) :
    findEntry fs k = none ↔ ∀ e ∈ fs, e.1 ≠ k := by
  induction fs with
  | nil => simp [findEntry]
  | cons e rest ih =>
    obtain ⟨ke, ne⟩ := e
    rw [findEntry]
    by_cases hk : ke = k
    · subst hk
      rw [if_pos rfl]
      constructor
      · intro h; cases h
      · intro h
        exact ((h (ke, ne) (List.mem_cons_self _ _)) rfl).elim
    · simp only [if_neg hk, ih, List.mem_cons]
      constructor
      · rintro h e (rfl | he)
        · exact hk
        · exact h e he
      · intro h e he
        exact h e (Or.inr he)

theorem findEntry_isSome_of_mem {fs : FS} {e : Path × Node} (h : e ∈ fs) :
    (findEntry fs e.1).isSome = true := by
  induction fs with
  | nil => cases h
  | cons e2 rest ih =>
    obtain ⟨k2, n2⟩ := e2
    rw [findEntry]
    by_cases hk : k2 = e.1
    · simp [hk]
    · rw [if_neg hk]
      rcases List.mem_cons.mp h with rfl | hmem
      · cases hk rfl
      · exact ih hmem

theorem mem_of_findEntry_some {fs : FS} {k : Path} {n : Node}
    (h : findEntry fs k = some n) : (k, n) ∈ fs := by
  induction fs with
  | nil => cases h
  | cons e rest ih =>
    obtain ⟨ke, ne⟩ := e
    rw [findEntry] at h
    by_cases hk : ke = k
    · rw [if_pos hk] at h
      cases h
      subst hk
      exact List.mem_cons_self _ _
    · rw [if_neg hk] at h
      exact List.mem_cons_of_mem _ (ih h)

theorem findEntry_some_of_mem_nodup {fs : FS} (hnd : (fs.map Prod.fst).Nodup)
    {k : Path} {n : Node} (h : (k, n) ∈ fs) : findEntry fs k = some n := by
  induction fs with
  | nil => cases h
  | cons e rest ih =>
    obtain ⟨ke, ne⟩ := e
    rw [List.map_cons, List.nodup_cons] at hnd
    rw [findEntry]
    rcases List.mem_cons.mp h with heq | hmem
    · cases heq
      rw [if_pos rfl]
    · by_cases hk : ke = k
      · subst hk
        exact absurd (List.mem_map_of_mem Prod.fst hmem) hnd.1
      · rw [if_neg hk]
        exact ih hnd.2 hmem

theorem pathExists_eq_false_of_none {fs : FS} {p : Path}
    (h : findEntry fs p = none) : pathExists fs p = false := by
  simp [pathExists, fsFuel, resolveEntry, h]

theorem pathExists_of_dir {fs : FS} {p : Path}
    (h : findEntry fs p = some Node.dir) : pathExists fs p = true := by
  simp [pathExists, fsFuel, resolveEntry, h]

theorem pathExists_of_file {fs : FS} {p : Path} {data : List Nat}
    (h : findEntry fs p = some (Node.file data)) : pathExists fs p = true := by
  simp [pathExists, fsFuel, resolveEntry, h]

theorem isDir_of_dir {fs : FS} {p : Path}
    (h : findEntry fs p = some Node.dir) : isDir fs p = true := by
  simp [isDir, fsFuel, resolveEntry, h]

/-! ## Characterizing the submodule walk-up loop -/

theorem isSubmoduleAux_iff (fs : FS) (root : Path) :
    ∀ (fuel : Nat) (q : Path), q.length < fuel → under root q = true →
      (isSubmoduleAux fs root fuel q = true ↔
        ∃ a ∈ q.inits, under root a = true ∧ a ≠ root ∧
          pathExists fs (a ++ [gitName]) = true) := by
  intro fuel
  induction fuel with
  | zero => intro q hlen; omega
  | succ fuel ih =>
    intro q hlen hroot
    rw [isSubmoduleAux]
    by_cases hq : q = root
    · subst hq
      rw [if_pos rfl]
      constructor
      · intro h; cases h
      · rintro ⟨a, ha, hra, hne, _⟩
        have har : a <+: q := (List.mem_inits a q).mp ha
        have h1 : under a q = true := (under_iff a q).mpr har
        exact absurd (under_antisymm hra h1).symm hne
    · rw [if_neg hq]
      by_cases hgit : pathExists fs (q ++ [gitName]) = true
      · rw [if_pos hgit]
        constructor
        · intro _
          exact ⟨q, (List.mem_inits q q).mpr ⟨[], by simp⟩, hroot, hq, hgit⟩
        · intro _; rfl
      · rw [if_neg hgit]
        have hqnil : q ≠ [] := by
          intro h
          subst h
          exact hq (under_nil_right hroot).symm
        rw [if_neg hqnil]
        have hlen2 : q.dropLast.length < fuel := by
          rw [List.length_dropLast]
          have : 1 ≤ q.length := by
            cases q with
            | nil => cases hqnil rfl
            | cons x xs => simp
          omega
        rw [ih q.dropLast hlen2 (under_dropLast hroot (fun h => hq h.symm))]
        constructor
        · rintro ⟨a, ha, h1, h2, h3⟩
          have hau : under a q.dropLast = true :=
            (under_iff _ _).mpr ((List.mem_inits a q.dropLast).mp ha)
          refine ⟨a, (List.mem_inits a q).mpr ?_, h1, h2, h3⟩
          exact (under_iff _ _).mp (under_of_under_dropLast hau)
        · rintro ⟨a, ha, h1, h2, h3⟩
          have hau : under a q = true := (under_iff _ _).mpr ((List.mem_inits a q).mp ha)
          have haq : a ≠ q := by
            intro h
            subst h
            exact hgit h3
          refine ⟨a, (List.mem_inits a q.dropLast).mpr ?_, h1, h2, h3⟩
          exact (under_iff _ _).mp (under_dropLast hau haq)

theorem isSubmodule_iff_nestedRepo (fs : FS) (root p : Path)
    (hroot : under root p = true) (hne : p ≠ root)
    (hgit : pathExists fs (p ++ [gitName]) = false) :
    (isSubmodule fs root p = true ↔ NestedRepo fs root p) := by
  rw [isSubmodule, isSubmoduleAux_iff fs root (p.length + 1) p (by omega) hroot, NestedRepo]
  constructor
  · rintro ⟨a, ha, h1, h2, h3⟩
    refine ⟨a, ha, h1, h2, ?_, h3⟩
    intro heq
    subst heq
    rw [h3] at hgit
    cases hgit
  · rintro ⟨a, ha, h1, h2, _, h3⟩
    exact ⟨a, ha, h1, h2, h3⟩

/-! ## Lemmas about erase, remove and rename -/

theorem findEntry_eraseEntry_self (fs : FS) (p : Path) :
    findEntry (eraseEntry fs p) p = none := by
  induction fs with
  | nil => rfl
  | cons e rest ih =>
    obtain ⟨ke, ne⟩ := e
    rw [eraseEntry]
    by_cases hk : ke = p
    · rw [if_pos hk]; exact ih
    · rw [if_neg hk, findEntry, if_neg hk]; exact ih

theorem findEntry_eraseEntry_other (fs : FS) (p q : Path) (h : q ≠ p) :
    findEntry (eraseEntry fs p) q = findEntry fs q := by
  induction fs with
  | nil => rfl
  | cons e rest ih =>
    obtain ⟨ke, ne⟩ := e
    rw [eraseEntry]
    by_cases hk : ke = p
    · rw [if_pos hk, findEntry, if_neg (by rw [hk]; exact fun he => h he.symm)]
      exact ih
    · rw [if_neg hk, findEntry, findEntry]
      by_cases hq : ke = q
      · rw [if_pos hq, if_pos hq]
      · rw [if_neg hq, if_neg hq]; exact ih

theorem mem_eraseEntry {fs : FS} {p : Path} {e : Path × Node}
    (h : e ∈ eraseEntry fs p) : e ∈ fs ∧ e.1 ≠ p := by
  induction fs with
  | nil => cases h
  | cons e2 rest ih =>
    obtain ⟨ke, ne⟩ := e2
    rw [eraseEntry] at h
    by_cases hk : ke = p
    · rw [if_pos hk] at h
      obtain ⟨h1, h2⟩ := ih h
      exact ⟨List.mem_cons_of_mem _ h1, h2⟩
    · rw [if_neg hk] at h
      rcases List.mem_cons.mp h with rfl | hmem
      · exact ⟨List.mem_cons_self _ _, hk⟩
      · obtain ⟨h1, h2⟩ := ih hmem
        exact ⟨List.mem_cons_of_mem _ h1, h2⟩

theorem findEntry_removeTree_other (fs : FS) (p q : Path) (h : under p q = false) :
    findEntry (removeTree fs p) q = findEntry fs q := by
  induction fs with
  | nil => rfl
  | cons e rest ih =>
    obtain ⟨ke, ne⟩ := e
    rw [removeTree]
    by_cases hk : under p ke = true
    · rw [if_pos hk, findEntry]
      have hne : ¬ (ke = q) := by
        intro he
        rw [he, h] at hk
        cases hk
      rw [if_neg hne]
      exact ih
    · rw [if_neg hk, findEntry, findEntry]
      by_cases hq : ke = q
      · rw [if_pos hq, if_pos hq]
      · rw [if_neg hq, if_neg hq]; exact ih

theorem mem_removeTree {fs : FS} {p : Path} {e : Path × Node}
    (h : e ∈ removeTree fs p) : e ∈ fs ∧ under p e.1 = false := by
  induction fs with
  | nil => cases h
  | cons e2 rest ih =>
    obtain ⟨ke, ne⟩ := e2
    rw [removeTree] at h
    by_cases hk : under p ke = true
    · rw [if_pos hk] at h
      obtain ⟨h1, h2⟩ := ih h
      exact ⟨List.mem_cons_of_mem _ h1, h2⟩
    · rw [if_neg hk] at h
      rcases List.mem_cons.mp h with rfl | hmem
      · exact ⟨List.mem_cons_self _ _, Bool.eq_false_iff.mpr hk⟩
      · obtain ⟨h1, h2⟩ := ih hmem
        exact ⟨List.mem_cons_of_mem _ h1, h2⟩

theorem findEntry_renameFs_dst (fs : FS) (src dst : Path)
    (hfresh : ∀ e ∈ fs, under dst e.1 = true → e.1 = dst) (k : Path) :
    findEntry (renameFs fs src dst) (dst ++ k) = findEntry fs (src ++ k) := by
  induction fs with
  | nil => rfl
  | cons e rest ih =>
    obtain ⟨ke, ne⟩ := e
    have hfresh2 : ∀ e ∈ rest, under dst e.1 = true → e.1 = dst :=
      fun e he => hfresh e (List.mem_cons_of_mem _ he)
    rw [renameFs]
    by_cases hsrc : under src ke = true
    · rw [if_pos hsrc, findEntry]
      by_cases heq : dst ++ ke.drop src.length = dst ++ k
      · have hk : ke = src ++ k := by
          have hd : ke.drop src.length = k := List.append_cancel_left heq
          rw [← eq_append_of_under hsrc, hd]
        rw [if_pos heq, findEntry, if_pos hk]
      · have hk : ¬ (ke = src ++ k) := by
          intro h
          apply heq
          rw [h, List.drop_left]
        rw [if_neg heq, findEntry, if_neg hk]
        exact ih hfresh2
    · rw [if_neg hsrc]
      by_cases hdst : ke = dst
      · rw [if_pos hdst, findEntry]
        have hk : ¬ (ke = src ++ k) := by
          intro h
          apply hsrc
          rw [h]
          exact under_append _ _
        rw [if_neg hk]
        exact ih hfresh2
      · rw [if_neg hdst, findEntry, findEntry]
        have h1 : ¬ (ke = dst ++ k) := by
          intro h
          refine hdst (hfresh (ke, ne) (List.mem_cons_self _ _) ?_)
          rw [h]
          exact under_append _ _
        have h2 : ¬ (ke = src ++ k) := by
          intro h
          apply hsrc
          rw [h]
          exact under_append _ _
        rw [if_neg h1, if_neg h2]
        exact ih hfresh2

theorem findEntry_renameFs_other (fs : FS) (src dst q : Path)
    (hs : under src q = false) (hd : under dst q = false) :
    findEntry (renameFs fs src dst) q = findEntry fs q := by
  induction fs with
  | nil => rfl
  | cons e rest ih =>
    obtain ⟨ke, ne⟩ := e
    rw [renameFs]
    by_cases hsrc : under src ke = true
    · rw [if_pos hsrc, findEntry, findEntry]
      have h1 : ¬ (dst ++ ke.drop src.length = q) := by
        intro h
        rw [← h] at hd
        rw [under_append dst _] at hd
        cases hd
      have h2 : ¬ (ke = q) := by
        intro h
        rw [h, hs] at hsrc
        cases hsrc
      rw [if_neg h1, if_neg h2]
      exact ih
    · rw [if_neg hsrc]
      by_cases hdst : ke = dst
      · rw [if_pos hdst, findEntry]
        have h1 : ¬ (ke = q) := by
          intro h
          rw [← h, hdst] at hd
          rw [under_refl] at hd
          cases hd
        rw [if_neg h1]
        exact ih
      · rw [if_neg hdst, findEntry, findEntry]
        by_cases hq : ke = q
        · rw [if_pos hq, if_pos hq]
        · rw [if_neg hq, if_neg hq]; exact ih

theorem under_append_false {p temp : Path} (k : Path)
    (hpt : under p temp = false) (htp : under temp p = false) :
    under p (temp ++ k) = false := by
  by_contra h
  rw [Bool.not_eq_false] at h
  rcases under_comparable p temp (temp ++ k) h (under_append _ _) with hc | hc
  · rw [hc] at hpt; cases hpt
  · rw [hc] at htp; cases htp

/-! ## The transactional-replace theorem (claim C2) -/

theorem fresh_mem_of_findEntry_none {fs : FS} {dst : Path}
    (hfresh : ∀ k, under dst k = true → findEntry fs k = none) :
    ∀ e ∈ fs, under dst e.1 = true → e.1 = dst := by
  intro e he hu
  exfalso
  have h1 := findEntry_isSome_of_mem he
  rw [hfresh e.1 hu] at h1
  cases h1

/-- After a restore, the subtree at `p` is exactly the backup subtree that
was parked at `temp`, whatever junk the failed closure left at or under
`p` (the children-imply-directory condition `hcoh2` reflects a real
filesystem, where a file cannot have children). -/
theorem findEntry_restorePath (r1 : FS) (p temp : Path)
    (hpt : under p temp = false) (htp : under temp p = false)
    (hcoh2 : ∀ k, under p k = true → k ≠ p →
      (findEntry r1 k).isSome = true → findEntry r1 p = some Node.dir)
    (k : Path) :
    findEntry (restorePath r1 p temp) (p ++ k) = findEntry r1 (temp ++ k) := by
  simp only [restorePath]
  have hunder_tk : under p (temp ++ k) = false := under_append_false k hpt htp
  have htkp : temp ++ k ≠ p := by
    intro h
    have h2 := under_append temp k
    rw [h] at h2
    rw [h2] at htp
    exact Bool.noConfusion htp
  by_cases hpe : pathExists r1 p = true
  · rw [if_pos hpe]
    by_cases hdir : isDir r1 p = true
    · rw [if_pos hdir]
      rw [findEntry_renameFs_dst (removeTree r1 p) temp p ?hfr k]
      case hfr =>
        intro e he hu
        obtain ⟨_, hf⟩ := mem_removeTree he
        rw [hu] at hf
        cases hf
      exact findEntry_removeTree_other r1 p _ hunder_tk
    · rw [if_neg hdir]
      rw [findEntry_renameFs_dst (eraseEntry r1 p) temp p ?hfe k]
      case hfe =>
        intro e he hu
        obtain ⟨hmem, hne⟩ := mem_eraseEntry he
        exfalso
        apply hdir
        exact isDir_of_dir (hcoh2 e.1 hu hne (findEntry_isSome_of_mem hmem))
      exact findEntry_eraseEntry_other r1 p _ htkp
  · rw [if_neg hpe]
    rw [findEntry_renameFs_dst r1 temp p ?hfn k]
    case hfn =>
      intro e he hu
      by_cases heq : e.1 = p
      · exact heq
      · exfalso
        apply hpe
        exact pathExists_of_dir (hcoh2 e.1 hu heq (findEntry_isSome_of_mem he))

/-- C2: if the protected path exists, its backup location is fresh and
disjoint from it, the closure touches only the subtree of the protected
path (leaving a filesystem where children only hang below directories), and
the closure fails with error `e`, then `backup::path` surfaces exactly `e`
and the whole subtree of the protected path is bit-identical to its state
before the call. -/
theorem backup_restores_on_failure {E T : Type} (fs : FS) (p temp : Path)
    (f : FS → FS × Except E T) (e : E)
    (hex : pathExists fs p = true)
    (hpt : under p temp = false) (htp : under temp p = false)
    (hfresh : ∀ k, under temp k = true → findEntry fs k = none)
    (hmod : ∀ k, under p k = false →
      findEntry (f (renameFs fs p temp)).1 k = findEntry (renameFs fs p temp) k)
    (hcoh : ∀ k, under p k = true → k ≠ p →
      (findEntry (f (renameFs fs p temp)).1 k).isSome = true →
      findEntry (f (renameFs fs p temp)).1 p = some Node.dir)
    (herr : (f (renameFs fs p temp)).2 = Except.error e) :
    (backupRun fs p temp f).2 = Except.error e ∧
    ∀ k, under p k = true →
      findEntry (backupRun fs p temp f).1 k = findEntry fs k := by
  have hrun : backupRun fs p temp f =
      (restorePath (f (renameFs fs p temp)).1 p temp, Except.error e) := by
    rw [backupRun, if_pos hex]
    simp only [herr]
  refine ⟨by rw [hrun], ?_⟩
  intro k hk
  rw [hrun]
  have hk' : p ++ k.drop p.length = k := eq_append_of_under hk
  rw [← hk']
  rw [findEntry_restorePath _ p temp hpt htp hcoh (k.drop p.length)]
  rw [hmod (temp ++ k.drop p.length) (under_append_false _ hpt htp)]
  exact findEntry_renameFs_dst fs p temp (fresh_mem_of_findEntry_none hfresh) _

/-- Witness for C2: the closure `fB` replaces the dotfiles directory with a
junk one and fails with error `7`; `backup::path` surfaces `7` and the
whole subtree of the protected path is restored. -/
theorem backup_restores_on_failure_witness :
    (backupRun fsB pB tempB fB).2 = Except.error 7 ∧
    ∀ k, under pB k = true → findEntry (backupRun fsB pB tempB fB).1 k = findEntry fsB k := by
  refine backup_restores_on_failure fsB pB tempB fB 7 (by decide) (by decide) (by decide)
    ?hfresh ?hmod ?hcoh (by decide)
  case hfresh =>
    intro k hku
    rw [findEntry_eq_none_iff]
    intro e2 he heq
    rw [← heq] at hku
    simp only [fsB, List.mem_cons, List.not_mem_nil, or_false] at he
    rcases he with rfl | rfl | rfl
    · exact absurd hku (by decide)
    · exact absurd hku (by decide)
    · exact absurd hku (by decide)
  case hmod =>
    intro k hku
    have h1 : pB ++ [nm "junk"] ≠ k := by
      intro h
      rw [← h, under_append] at hku
      exact Bool.noConfusion hku
    have h2 : pB ≠ k := by
      intro h
      rw [← h, under_refl] at hku
      exact Bool.noConfusion hku
    simp only [fB, insertEntry]
    rw [findEntry, if_neg h1, findEntry, if_neg h2]
  case hcoh =>
    intro k _ _ _
    decide

/-! ## The scan theorem (claim C8) -/

theorem folderBlacklisted_eq_false (p : Path) :
    folderBlacklisted p = false ↔ gitName ∉ p := by
  simp only [folderBlacklisted, directoryBlacklist, List.any_eq_false, List.any_cons,
    List.any_nil, Bool.or_false, beq_iff_eq]
  exact ⟨fun h hm => h _ hm rfl, fun h x hx he => h (he ▸ hx)⟩

theorem fileBlacklisted_eq_false (fileName : Name) :
    fileBlacklisted fileName = false ↔
      (fileName ≠ nm ".gitignore" ∧ fileName ≠ nm ".git") := by
  simp [fileBlacklisted, dotfileFileBlacklist]

theorem isFileEntry_iff (fs : FS) (fp : Path) :
    isFileEntry fs fp = true ↔ ∃ data, findEntry fs fp = some (Node.file data) := by
  cases h : findEntry fs fp with
  | none => simp [isFileEntry, h]
  | some n => cases n <;> simp [isFileEntry, h]

theorem pathExists_git_false_of_file {fs : FS}
    (hfile : ∀ e ∈ fs, isFileNode e.2 = true → ∀ e2 ∈ fs, under e.1 e2.1 = true → e.1 = e2.1)
    {fp : Path} {data : List Nat} (h : findEntry fs fp = some (Node.file data)) :
    pathExists fs (fp ++ [gitName]) = false := by
  apply pathExists_eq_false_of_none
  rw [findEntry_eq_none_iff]
  intro e he heq
  have hmem := mem_of_findEntry_some h
  have hun : under fp e.1 = true := by
    rw [heq]
    exact under_append _ _
  have hcontra := hfile (fp, Node.file data) hmem rfl e he hun
  rw [heq] at hcontra
  have hlen := congrArg List.length hcontra
  simp at hlen

/-- C8: on a well-formed filesystem whose dotfiles root is a directory, the
scan returns a dotfile exactly when a regular file sits at its full path
under the root, no path component is `.git`, its own name is neither
`.gitignore` nor `.git`, no ancestor strictly between the file and the root
contains a `.git` entry, and the relative path is the full path with the
root prefix stripped. -/
theorem dotfiles_scan_exclusion (fs : FS) (root : Path)
    (hwf : WFfs fs) (hroot : findEntry fs root = some Node.dir) :
    ∀ fp rel, (Dotfile.mk fp rel ∈ dotfilesScan fs root ↔
      (isFileEntry fs fp = true ∧ under root fp = true ∧
       gitName ∉ fp ∧ fileNameOf fp ≠ nm ".gitignore" ∧ fileNameOf fp ≠ nm ".git" ∧
       ¬ NestedRepo fs root fp ∧ rel = fp.drop root.length)) := by
  obtain ⟨hnd, hfile⟩ := hwf
  intro fp rel
  rw [dotfilesScan, if_pos (pathExists_of_dir hroot), List.mem_filterMap]
  constructor
  · rintro ⟨e, he, hfe⟩
    by_cases hcond : (isFileNode e.2 && under root e.1 && !folderBlacklisted e.1 &&
        !fileBlacklisted (fileNameOf e.1) && !isSubmodule fs root e.1) = true
    · rw [if_pos hcond, Option.some.injEq, Dotfile.mk.injEq] at hfe
      obtain ⟨hfp, hrel⟩ := hfe
      subst hfp
      simp only [Bool.and_eq_true, Bool.not_eq_true'] at hcond
      obtain ⟨⟨⟨⟨hf, hu⟩, hfb⟩, hnb⟩, hsb⟩ := hcond
      have hfind : findEntry fs e.1 = some e.2 := by
        have hmem : (e.1, e.2) ∈ fs := by simpa using he
        exact findEntry_some_of_mem_nodup hnd hmem
      obtain ⟨data, hdata⟩ : ∃ data, e.2 = Node.file data := by
        cases h2 : e.2 with
        | file data => exact ⟨data, rfl⟩
        | dir => rw [h2] at hf; cases hf
        | symlink t => rw [h2] at hf; cases hf
      rw [hdata] at hfind
      have hneroot : e.1 ≠ root := by
        intro heq
        rw [heq, hroot] at hfind
        simp at hfind
      have hgitf : pathExists fs (e.1 ++ [gitName]) = false :=
        pathExists_git_false_of_file hfile hfind
      refine ⟨?_, hu, ?_, ?_, ?_, ?_, hrel.symm⟩
      · simp [isFileEntry, hfind]
      · exact (folderBlacklisted_eq_false e.1).mp hfb
      · exact ((fileBlacklisted_eq_false _).mp hnb).1
      · exact ((fileBlacklisted_eq_false _).mp hnb).2
      · intro hNR
        rw [← isSubmodule_iff_nestedRepo fs root e.1 hu hneroot hgitf] at hNR
        rw [hsb] at hNR
        cases hNR
    · rw [if_neg hcond] at hfe
      cases hfe
  · rintro ⟨hfe, hu, hnin, hn1, hn2, hNR, hrel⟩
    obtain ⟨data, hfind⟩ := (isFileEntry_iff fs fp).mp hfe
    have hneroot : fp ≠ root := by
      intro heq
      rw [heq, hroot] at hfind
      simp at hfind
    have hgitf : pathExists fs (fp ++ [gitName]) = false :=
      pathExists_git_false_of_file hfile hfind
    have hsb : isSubmodule fs root fp = false := by
      rw [Bool.eq_false_iff]
      intro h
      exact hNR ((isSubmodule_iff_nestedRepo fs root fp hu hneroot hgitf).mp h)
    refine ⟨(fp, Node.file data), mem_of_findEntry_some hfind, ?_⟩
    have hcond : (isFileNode (fp, Node.file data).2 && under root (fp, Node.file data).1 &&
        !folderBlacklisted (fp, Node.file data).1 &&
        !fileBlacklisted (fileNameOf (fp, Node.file data).1) &&
        !isSubmodule fs root (fp, Node.file data).1) = true := by
      simp only [Bool.and_eq_true, Bool.not_eq_true']
      exact ⟨⟨⟨⟨rfl, hu⟩, (folderBlacklisted_eq_false fp).mpr hnin⟩,
        (fileBlacklisted_eq_false _).mpr ⟨hn1, hn2⟩⟩, hsb⟩
    rw [if_pos hcond, hrel]

/-- Witness for C8: in the fixture cache only `.vimrc` survives the scan —
`.git/config`, the nested `vendor/.git` repository file `vendor/sub.conf`
and `.gitignore` are all excluded — and its relative path is `.vimrc`. -/
theorem dotfiles_scan_exclusion_witness :
    Dotfile.mk (root8 ++ [nm ".vimrc"]) [nm ".vimrc"] ∈ dotfilesScan fs8 root8 ∧
    dotfilesScan fs8 root8 = [⟨root8 ++ [nm ".vimrc"], [nm ".vimrc"]⟩] :=
  ⟨(dotfiles_scan_exclusion fs8 root8 (by decide) (by decide)
      (root8 ++ [nm ".vimrc"]) [nm ".vimrc"]).mpr (by decide), by decide⟩

/-! ## Theorems about the feature layer (claims C3, C6, C7) -/

/-- A found feature token is equal to the searched component. -/
theorem find?_feature_eq (part x : Name)
    (h : allFeatures.find? (fun f => f == part) = some x) : x = part := by
  have := List.find?_some h
  simpa using this

/-- A component is a known feature exactly when the `required_features`
search finds a token for it. -/
theorem isFeature_iff_find? (part : Name) :
    isFeature part = true ↔ ∃ x, allFeatures.find? (fun f => f == part) = some x := by
  rw [isFeature, List.any_eq_true]
  constructor
  · rintro ⟨x, hx, he⟩
    exact Option.isSome_iff_exists.mp (List.find?_isSome.mpr ⟨x, hx, he⟩)
  · rintro ⟨x, hx⟩
    have hpx := List.find?_some hx
    exact ⟨x, List.mem_of_find?_eq_some hx, hpx⟩

/-- C3: for every dotfile `D` and validly-constructed feature set `F`,
`supports F D` is true iff every component of `D`'s file name that exactly
matches a known feature token is an enabled token of `F`; moreover a file
none of whose components matches a known feature token is supported by every
feature set. -/
theorem supports_iff_subset (enabled : List Name) (d : Dotfile)
    (_hv : ValidFeatureSet enabled) :
    (supports enabled d = true ↔
      ∀ c ∈ splitOnDot (fileNameOf d.relativePath), isFeature c = true → c ∈ enabled) ∧
    ((∀ c ∈ splitOnDot (fileNameOf d.relativePath), isFeature c = false) →
      supports enabled d = true) := by
  have main : supports enabled d = true ↔
      ∀ c ∈ splitOnDot (fileNameOf d.relativePath), isFeature c = true → c ∈ enabled := by
    rw [supports, List.all_eq_true]
    constructor
    · intro hs c hc hf
      obtain ⟨x, hx⟩ := (isFeature_iff_find? c).mp hf
      have hcx : x = c := find?_feature_eq _ _ hx
      subst hcx
      have hmem : x ∈ requiredFeatures (fileNameOf d.relativePath) :=
        List.mem_filterMap.mpr ⟨x, hc, hx⟩
      have := hs x hmem
      rw [List.any_eq_true] at this
      obtain ⟨e, he, hee⟩ := this
      rw [beq_iff_eq] at hee
      rwa [hee] at he
    · intro h r hr
      obtain ⟨part, hp, hg⟩ := List.mem_filterMap.mp hr
      have hrp : r = part := find?_feature_eq _ _ hg
      subst hrp
      have hf : isFeature r = true := (isFeature_iff_find? r).mpr ⟨r, hg⟩
      have := h r hp hf
      rw [List.any_eq_true]
      exact ⟨r, this, by simp⟩
  refine ⟨main, fun h => main.mpr ?_⟩
  intro c hc hf
  rw [h c hc] at hf
  cases hf

/-- Witness for C3 at the spec's example: `.tmux.linux.x86.conf` is
supported by `{linux, unix, x86}` while `.tmux.windows.conf` is not. -/
theorem supports_iff_subset_witness :
    supports [nm "linux", nm "unix", nm "x86"] ⟨[], [nm ".tmux.linux.x86.conf"]⟩ = true ∧
    supports [nm "linux", nm "unix", nm "x86"] ⟨[], [nm ".tmux.windows.conf"]⟩ = false := by
  constructor
  · exact (supports_iff_subset [nm "linux", nm "unix", nm "x86"]
      ⟨[], [nm ".tmux.linux.x86.conf"]⟩ (by decide)).1.mpr (by decide)
  · decide

/-- C6 counterexample: with enabled tokens `{linux, unix, x86}` (in every
possible iteration order), the file name `.foox86rc` has no component equal
to an enabled token, yet the code rewrites it to `.fooarchrc` because
`str::replace` substitutes substrings, not whole components. -/
theorem substitute_not_componentwise :
    componentwiseSubstitute [nm "linux", nm "unix", nm "x86"] (nm ".foox86rc") = nm ".foox86rc" ∧
    enabledOrders.all (fun l => substituteFileName l (nm ".foox86rc") == nm ".fooarchrc") = true ∧
    nm ".fooarchrc" ≠ nm ".foox86rc" := by decide

/-- C6 amended: substitution rewrites every substring occurrence of an
enabled token to its namespace name; in particular all four spec examples
hold under every iteration order of `{linux, unix, x86}`. -/
theorem substitute_examples :
    enabledOrders.all (fun l =>
      substituteFileName l (nm "foo.bar") == nm "foo.bar" &&
      substituteFileName l (nm ".tmux.linux.conf") == nm ".tmux.os.conf" &&
      substituteFileName l (nm ".tmux.linux.x86.conf") == nm ".tmux.os.arch.conf" &&
      substituteFileName l (nm ".tmux.linux.unix.x86.conf") == nm ".tmux.os.family.arch.conf") = true ∧
    enabledOrders.all (fun l =>
      decide (substituteEnabledFeatureNames l
          ⟨[nm "cache", nm ".tmux.linux.conf"], [nm ".tmux.linux.conf"]⟩ =
        ⟨[nm "cache", nm ".tmux.linux.conf"], [nm ".tmux.os.conf"]⟩)) = true := by decide

/-- C7 counterexample: `{macos}` is a validly-constructed feature set, yet
substituting the file name `macmacos` once yields `macos` and substituting
twice yields `os` — substitution is not idempotent, because replacing a
token can manufacture a new token occurrence. -/
theorem substitute_not_idempotent :
    ValidFeatureSet [nm "macos"] ∧
    substituteEnabledFeatureNames [nm "macos"]
        (substituteEnabledFeatureNames [nm "macos"] ⟨[], [nm "macmacos"]⟩) ≠
      substituteEnabledFeatureNames [nm "macos"] ⟨[], [nm "macmacos"]⟩ := by decide

/-- Replacement is the identity on strings without an occurrence of the
pattern. -/
theorem replaceAllAux_of_not_occurs (t n : Name) (fuel : Nat) (s : Name)
    (h : occursIn t s = false) : replaceAllAux t n fuel s = s := by
  induction fuel generalizing s with
  | zero => rfl
  | succ fuel ih =>
    match s with
    | [] => rfl
    | c :: rest =>
      rw [occursIn, Bool.or_eq_false_iff] at h
      rw [replaceAllAux, if_neg, ih rest h.2]
      intro hand
      rw [hand.2] at h
      cases h.1

/-- `replaceAll` is the identity on strings without an occurrence of the
pattern. -/
theorem replaceAll_of_not_occurs (t n s : Name) (h : occursIn t s = false) :
    replaceAll t n s = s :=
  replaceAllAux_of_not_occurs t n s.length s h

/-- Substitution is the identity on file names containing no enabled
token. -/
theorem substituteFileName_of_no_token (enabled : List Name) (s : Name)
    (h : ∀ t ∈ enabled, occursIn t s = false) :
    substituteFileName enabled s = s := by
  induction enabled with
  | nil => rfl
  | cons t ts ih =>
    rw [substituteFileName, replaceAll_of_not_occurs t _ s (h t (by simp))]
    exact ih (fun u hu => h u (by simp [hu]))

/-- The last component of a path ending in `a` is `a`. -/
theorem fileNameOf_append (l : Path) (a : Name) : fileNameOf (l ++ [a]) = a := by
  rw [fileNameOf]
  exact List.getLastD_concat _ _ _

/-- C7 amended: for every validly-constructed feature set and every dotfile,
substituting twice yields the same relative path as substituting once,
provided no enabled token still occurs in the once-substituted file name
(the counterexample `macmacos` shows the proviso is necessary). -/
theorem substitute_idempotent_of_no_token (enabled : List Name) (d : Dotfile)
    (_hv : ValidFeatureSet enabled)
    (h : ∀ t ∈ enabled,
      occursIn t (substituteFileName enabled (fileNameOf d.relativePath)) = false) :
    substituteEnabledFeatureNames enabled (substituteEnabledFeatureNames enabled d) =
      substituteEnabledFeatureNames enabled d := by
  unfold substituteEnabledFeatureNames substitutePath
  congr 1
  rw [List.dropLast_concat, fileNameOf_append,
    substituteFileName_of_no_token enabled _ h]

/-- Witness for the amended C7 at the spec's example file
`.tmux.linux.conf` with enabled tokens `{linux, unix, x86}`. -/
theorem substitute_idempotent_witness :
    substituteEnabledFeatureNames [nm "linux", nm "unix", nm "x86"]
        (substituteEnabledFeatureNames [nm "linux", nm "unix", nm "x86"]
          ⟨[], [nm ".tmux.linux.conf"]⟩) =
      substituteEnabledFeatureNames [nm "linux", nm "unix", nm "x86"]
        ⟨[], [nm ".tmux.linux.conf"]⟩ :=
  substitute_idempotent_of_no_token _ _ (by decide) (by decide)

/-! ## Theorems about symlink.rs (claims C1, C4, C9, C10) -/

/-- C1: at a link path holding a symlink whose canonical target differs from
the dotfile's canonical `full_path`, `build` leaves the stale link in place
(the filesystem is unchanged) and returns an `EEXIST` error from
`symlink(2)` instead of deleting the stale link, recreating it and
returning success — the "deleting it" log branch of the source performs no
deletion. -/
theorem build_stale_symlink_fails :
    findEntry fsStale (linkPath d1 cfg1) = some (Node.symlink [nm "other"]) ∧
    canonicalize fsStale [nm "other"] ≠ canonicalize fsStale d1.fullPath ∧
    build fsStale d1 cfg1 = (fsStale, Except.error FsError.eexist) := by decide

/-- C4: when a regular file occupies the link path, `build` returns success
and leaves the filesystem — in particular that file and its contents —
completely unchanged. -/
theorem build_preserves_regular_file (fs : FS) (d : Dotfile) (cfg : Config) (data : List Nat)
    (h : findEntry fs (linkPath d cfg) = some (Node.file data)) :
    build fs d cfg = (fs, Except.ok ()) := by
  have hres : resolveEntry fs (fsFuel fs) (linkPath d cfg) =
      some (linkPath d cfg, Node.file data) := by
    rw [fsFuel, resolveEntry, h]
  simp [build, pathExists, isDir, hres, h]

/-- Witness for C4: a regular file at `/home/g` survives `build` and the
call succeeds. -/
theorem build_preserves_regular_file_witness :
    build fsRegular d9 cfg1 = (fsRegular, Except.ok ()) :=
  build_preserves_regular_file fsRegular d9 cfg1 [7] (by decide)

/-- C9 counterexample: `destroy` does delete a regular file occupying the
link path — the entry is gone afterwards and the call reports success, so
`destroy` does not leave every non-symlink entry in place. -/
theorem destroy_removes_regular_file :
    findEntry fsRegular (linkPath d9 cfg1) = some (Node.file [7]) ∧
    (destroy fsRegular d9 cfg1).2 = Except.ok () ∧
    findEntry (destroy fsRegular d9 cfg1).1 (linkPath d9 cfg1) = none := by decide

/-- C9 amended: `destroy` never destroys directories — a directory at the
link path is left in place and the `remove_file` error is propagated — and
an already-absent link path is success; a regular file, however, is removed
like a symlink (callers guard `destroy` with `exists`). -/
theorem destroy_safe_on_dir_and_absent (fs : FS) (d : Dotfile) (cfg : Config) :
    (findEntry fs (linkPath d cfg) = some Node.dir →
      destroy fs d cfg = (fs, Except.error FsError.isDirectory)) ∧
    (findEntry fs (linkPath d cfg) = none → destroy fs d cfg = (fs, Except.ok ())) := by
  constructor <;> intro h <;> simp [destroy, h]

/-- Witness for the amended C9: a directory at the link path survives with
an error; destroying an absent link path succeeds. -/
theorem destroy_safe_on_dir_and_absent_witness :
    destroy [([nm "home", nm "q"], Node.dir)] ⟨[], [nm "q"]⟩ ⟨[nm "home"]⟩ =
      ([([nm "home", nm "q"], Node.dir)], Except.error FsError.isDirectory) ∧
    destroy [] ⟨[], [nm "q"]⟩ ⟨[nm "home"]⟩ = ([], Except.ok ()) :=
  ⟨(destroy_safe_on_dir_and_absent _ _ _).1 (by decide),
   (destroy_safe_on_dir_and_absent _ _ _).2 (by decide)⟩

/-- C10: a dangling symlink at the link path makes `exists` return
`Ok(false)` — the existence check resolves the link before the
symlink-type test — and consequently `unlink` leaves the dangling link in
place. -/
theorem dangling_symlink_not_ours (fs : FS) (d : Dotfile) (cfg : Config) (t : Path)
    (hlink : findEntry fs (linkPath d cfg) = some (Node.symlink t))
    (hdead : pathExists fs (linkPath d cfg) = false) :
    linkExists fs d cfg = Except.ok false ∧
    unlinkStep fs [d] cfg = (fs, Except.ok ()) ∧
    findEntry (unlinkStep fs [d] cfg).1 (linkPath d cfg) = some (Node.symlink t) := by
  have h1 : linkExists fs d cfg = Except.ok false := by
    simp [linkExists, hdead]
  have h2 : unlinkStep fs [d] cfg = (fs, Except.ok ()) := by
    simp [unlinkStep, h1]
  refine ⟨h1, h2, ?_⟩
  rw [h2]
  exact hlink

/-- Witness for C10 at a dangling link `/home/h → /gone`. -/
theorem dangling_symlink_not_ours_witness :
    linkExists fsDangling d10 ⟨[nm "home"]⟩ = Except.ok false ∧
    unlinkStep fsDangling [d10] ⟨[nm "home"]⟩ = (fsDangling, Except.ok ()) ∧
    findEntry (unlinkStep fsDangling [d10] ⟨[nm "home"]⟩).1 (linkPath d10 ⟨[nm "home"]⟩) =
      some (Node.symlink [nm "gone"]) :=
  dangling_symlink_not_ours fsDangling d10 ⟨[nm "home"]⟩ [nm "gone"] (by decide) (by decide)

/-! ## Theorems about link/unlink (claim C5) -/

/-- C5: linking the cache's single dotfile `.tmux.linux.conf` (eligible on
a `{linux, unix, x86}` machine) creates the symlink under the substituted
name `.tmux.os.conf`, but `unlink` — which does not substitute feature
names — reports success while leaving that symlink in place; the cached
file itself is untouched. -/
theorem unlink_misses_substituted_link :
    (linkFull fs5 enabled5 root5 ⟨home5⟩).2 = Except.ok () ∧
    (unlinkFull (linkFull fs5 enabled5 root5 ⟨home5⟩).1 root5 ⟨home5⟩).2 = Except.ok () ∧
    findEntry (unlinkFull (linkFull fs5 enabled5 root5 ⟨home5⟩).1 root5 ⟨home5⟩).1
        (home5 ++ [nm ".tmux.os.conf"]) =
      some (Node.symlink (root5 ++ [nm ".tmux.linux.conf"])) ∧
    findEntry (unlinkFull (linkFull fs5 enabled5 root5 ⟨home5⟩).1 root5 ⟨home5⟩).1
        (root5 ++ [nm ".tmux.linux.conf"]) = some (Node.file [3]) := by decide

end Polk
